import Mathlib

/-!
# Verification of the AirDesignAi recognition-to-solution pipeline

Shallow embedding of the pipeline code in `backend/services/ocr.py`
(`OCRService._clean_math_text`, `extract_math_from_image`),
`backend/services/solver.py` (`MathSolverService.solve_generic`,
`build_graph_data`) and `backend/routes/solve.py` (`_rate_limit`,
`solve_equation`).

Text is modelled as `List Char` (Python `str` operates on unicode code
points).  Clock timestamps are modelled as `ℚ` (the code uses
`time.time()` float seconds; only comparisons and a fixed subtraction
occur, so the idealisation to exact rationals is faithful for the rate
limiter's control flow).  The external SymPy / NumPy capabilities are
modelled explicitly where a claim depends on their observable behaviour,
and kept abstract (parameters) where it does not.
-/

set_option linter.unusedVariables false

/-! ## Python string primitives -/

/-- Python whitespace characters matched by the pattern class used in
`re.sub` with a backslash-s, restricted to the ASCII range actually
reachable from the OCR alphabet. -/
def isPySpace (c : Char) : Bool :=
  c == ' ' || c == '\t' || c == '\n' || c == '\r' || c == '\x0b' || c == '\x0c'

/-- `p` is a prefix of `l` (Boolean, structural). -/
def isPrefixB : List Char → List Char → Bool
  | [], _ => true
  | _ :: _, [] => false
  | p :: ps, c :: cs => (p == c) && isPrefixB ps cs

/-- `p` occurs as a contiguous substring of `l` (Python `p in l`). -/
def isSubB (p : List Char) : List Char → Bool
  | [] => p.isEmpty
  | c :: cs => isPrefixB p (c :: cs) || isSubB p cs

/-- One scanning pass of Python `str.replace(p, r)`: leftmost,
non-overlapping, the scan resumes after the inserted replacement.  The
first argument is explicit fuel; with fuel at least the length of the
input (every caller below supplies exactly that) the scan runs to the
end of the string, matching CPython's semantics for non-empty `p`. -/
def replaceFuel (p r : List Char) : Nat → List Char → List Char
  | _, [] => []
  | 0, l => l
  | n + 1, c :: cs =>
      if !p.isEmpty && isPrefixB p (c :: cs) then
        r ++ replaceFuel p r n (cs.drop (p.length - 1))
      else
        c :: replaceFuel p r n cs

/-- Python `text.replace(p, r)` for non-empty `p`. -/
def pyReplace (p r l : List Char) : List Char :=
  replaceFuel p r l.length l

/-- Python `text.strip()`: remove leading and trailing whitespace. -/
def pyStrip (l : List Char) : List Char :=
  ((l.dropWhile isPySpace).reverse.dropWhile isPySpace).reverse

/-- Apply a substitution table left to right, each entry with Python
`str.replace` semantics — the loop `for old, new in replacements.items():
text = text.replace(old, new)` of `_clean_math_text` (Python 3.7+ dicts
iterate in insertion order). -/
def applyAll (tbl : List (List Char × List Char)) (l : List Char) : List Char :=
  tbl.foldl (fun acc pr => pyReplace pr.1 pr.2 acc) l

/-! ## The sanitizer (`OCRService._clean_math_text`) -/

/-- The `replacements` dict of `_clean_math_text`, in source (insertion)
order.  Note the first entry maps the letter x itself to the
multiplication star, and that several entries are identities. -/
def REPLACEMENTS : List (List Char × List Char) :=
  [ ("x".toList, "*".toList)
  , ("×".toList, "*".toList)
  , ("÷".toList, "/".toList)
  , ("−".toList, "-".toList)
  , ("–".toList, "-".toList)
  , ("=".toList, "=".toList)
  , ("(".toList, "(".toList)
  , (")".toList, ")".toList)
  , ("[".toList, "(".toList)
  , ("]".toList, ")".toList)
  , ("\x7b".toList, "(".toList)
  , ("\x7d".toList, ")".toList)
  , ("sqrt".toList, "√".toList)
  , ("pi".toList, "π".toList)
  , ("int".toList, "∫".toList)
  , ("sum".toList, "∑".toList)
  , ("partial".toList, "∂".toList)
  , ("delta".toList, "∆".toList)
  , ("nabla".toList, "∇".toList)
  , ("ln".toList, "log".toList)
  , ("log10".toList, "log".toList)
  , ("sin".toList, "sin".toList)
  , ("cos".toList, "cos".toList)
  , ("tan".toList, "tan".toList)
  , ("arcsin".toList, "asin".toList)
  , ("arccos".toList, "acos".toList)
  , ("arctan".toList, "atan".toList) ]

/-- The final `re.sub` of `_clean_math_text` ("remove any non-math
characters").  In the source the pattern's character class is terminated
by the first unescaped closing square bracket — the one of the bracket
pair placed in the middle of the intended alphabet — so the pattern
actually is: one character outside a small set, followed by the literal
run of the remaining alphabet, which contains a caret.  Outside a class
a caret is a beginning-of-string anchor, and it sits after three consumed
characters, so the pattern cannot match at any position: the
substitution removes nothing.  Hence this stage is the identity. -/
def brokenCharStrip (l : List Char) : List Char := l

/-- `OCRService._clean_math_text`: remove all whitespace, apply the
substitution table, apply the (vacuous) character strip, and
`str.strip()` the result. -/
def _clean_math_text (text : List Char) : List Char :=
  pyStrip (brokenCharStrip (applyAll REPLACEMENTS (text.filter (fun c => !isPySpace c))))

/-! ## The admission controller (`routes/solve.py::_rate_limit`) -/

def _MAX_CALLS : Nat := 30

def _WINDOW_SECONDS : ℚ := 60

/-- One call to `_rate_limit` for a single caller identity: prune the
bucket to timestamps at least `now - _WINDOW_SECONDS` (the in-place
`bucket[:] = ...` persists even when the call is then denied), deny if
the pruned bucket already holds `_MAX_CALLS` timestamps, otherwise
append `now` and admit.  Returns (admitted?, new bucket). -/
def _rate_limit (bucket : List ℚ) (now : ℚ) : Bool × List ℚ :=
  let pruned := bucket.filter (fun t => decide (now - _WINDOW_SECONDS ≤ t))
  if _MAX_CALLS ≤ pruned.length then (false, pruned)
  else (true, pruned ++ [now])

/-- Run a sequence of calls (their clock times) against one identity's
bucket, starting from `bucket` with `admitted` the (ghost) list of call
times admitted so far.  Returns the final bucket and the list of all
admitted call times. -/
def runCallsFrom : List ℚ → List ℚ → List ℚ → List ℚ × List ℚ
  | bucket, admitted, [] => (bucket, admitted)
  | bucket, admitted, t :: ts =>
      match _rate_limit bucket t with
      | (true, b2) => runCallsFrom b2 (admitted ++ [t]) ts
      | (false, b2) => runCallsFrom b2 admitted ts

/-- Run a sequence of calls against a fresh identity (first call creates
the bucket via `setdefault(key, [])`). -/
def runCalls (calls : List ℚ) : List ℚ × List ℚ :=
  runCallsFrom [] [] calls

/-- Membership of a timestamp in the closed sliding window starting at
`a` of duration `_WINDOW_SECONDS`. -/
def inWindow (a s : ℚ) : Bool :=
  decide (a ≤ s) && decide (s ≤ a + _WINDOW_SECONDS)

/-! ## Symbolic expressions and the external algebra capability

`solve_generic` hands all parsing and solving to SymPy.  We embed the
syntax tree shape the code inspects (`isinstance(expr, sp.Equality)`,
`sp.Eq(expr, 0)`) and abstract the rest of the engine behind a
capability record, as the spec prescribes for the external collaborator.
-/

/-- Shape of a SymPy expression as far as `solve_generic` inspects it:
it only distinguishes `Equality` nodes from everything else and builds
`Eq(expr, 0)`.  Arithmetic nodes carry the structure produced by the
`sympify` model below. -/
inductive SymExpr
  | intL (n : Int)
  | symb (name : List Char)
  | addE (a b : SymExpr)
  | subE (a b : SymExpr)
  | mulE (a b : SymExpr)
  | divE (a b : SymExpr)
  | powE (a b : SymExpr)
  | negE (a : SymExpr)
  | equality (a b : SymExpr)
deriving DecidableEq

/-- Is this node a `sp.Equality`? -/
def SymExpr.isEquality : SymExpr → Bool
  | .equality _ _ => true
  | _ => false

/-- The external algebra capability consumed by `solve_generic`.  Every
operation that can raise in Python is `Except`-valued; every string the
engine renders (pretty printing, `str`/`latex` of solution objects) is
produced by the capability, since its exact text is engine-defined.
`freeSymbols` and `unionFreeSymbols` model `list(expr.free_symbols)` and
`list(set().union(*...))`: Python sets enumerated in an
interpreter-dependent order, so the order is whatever the capability
instance provides. -/
structure AlgebraCap where
  sympify : List Char → Except (List Char) SymExpr
  freeSymbols : SymExpr → List (List Char)
  unionFreeSymbols : List SymExpr → List (List Char)
  solveOne : SymExpr → List Char → Except (List Char) (List Char × List Char)
  solveMany : List SymExpr → List (List Char) → Except (List Char) (List Char × List Char)
  pretty : SymExpr → List Char
  showVars : List (List Char) → List Char
  showEqs : List SymExpr → List Char

/-- Python `'c' in text` for a single character. -/
def hasChar (c : Char) (l : List Char) : Bool := l.contains c

/-- Python `text.split(c)`. -/
def splitOnChar (c : Char) : List Char → List (List Char)
  | [] => [[]]
  | a :: as =>
      let r := splitOnChar c as
      if a == c then [] :: r
      else
        match r with
        | [] => [[a]]
        | h :: t => (a :: h) :: t

/-- The `try`-block body of `MathSolverService.solve_generic`; an
`Except.error` is an exception reaching the `except Exception` handler.
Control flow follows the source: the simultaneous-equation branch fires
when the text has a semicolon, or a comma with no opening square
bracket anywhere; otherwise the whole text is sympified, an `Equality`
is solved for the first enumerated free symbol (default `x`), and any
other expression is wrapped as `Eq(expr, 0)` and solved likewise. -/
def solve_generic_body (cap : AlgebraCap) (expression : List Char) :
    Except (List Char) (List Char × List Char) :=
  if hasChar ';' expression || (hasChar ',' expression && !hasChar '[' expression) then do
    let parts := (splitOnChar ',' (expression.map (fun c => if c == ';' then ',' else c))).map pyStrip
    let eqs ← parts.mapM (fun p =>
      if hasChar '=' p then do
        let segs := splitOnChar '=' p
        let a ← cap.sympify (segs.getD 0 [])
        let b ← cap.sympify (segs.getD 1 [])
        pure (SymExpr.equality a b)
      else cap.sympify p)
    let vars0 := cap.unionFreeSymbols eqs
    let vars := if vars0.isEmpty then ["x".toList] else vars0
    let sol ← cap.solveMany eqs vars
    pure (sol.1,
      "Solved system of equations for ".toList ++ cap.showVars vars ++ ": ".toList
        ++ cap.showEqs eqs ++ " -> ".toList ++ sol.2)
  else do
    let expr ← cap.sympify expression
    match expr with
    | SymExpr.equality a b =>
        let vars := cap.freeSymbols (SymExpr.equality a b)
        let solveFor := vars.headD ("x".toList)
        let sol ← cap.solveOne (SymExpr.equality a b) solveFor
        pure (sol.1,
          "Solved equation for ".toList ++ solveFor ++ ": ".toList
            ++ cap.pretty (SymExpr.equality a b) ++ " -> ".toList ++ sol.2)
    | e =>
        let eq := SymExpr.equality e (SymExpr.intL 0)
        let vars := cap.freeSymbols e
        let solveFor := vars.headD ("x".toList)
        let sol ← cap.solveOne eq solveFor
        pure (sol.1,
          "Solved expression ".toList ++ cap.pretty e ++ " = 0 for ".toList
            ++ solveFor ++ " -> ".toList ++ sol.2)

/-- `MathSolverService.solve_generic`: the `except Exception` handler
converts any internal exception into a normally returned pair
`(f-string Error colon message, f-string Failed to solve colon expression)` —
it never re-raises. -/
def solve_generic (cap : AlgebraCap) (expression : List Char) : List Char × List Char :=
  match solve_generic_body cap expression with
  | .ok r => r
  | .error e => ("Error: ".toList ++ e, "Failed to solve: ".toList ++ expression)

/-! ## A concrete model of SymPy's `sympify`

`sp.sympify(text)` parses `text` as a Python expression (via
`parse_expr` with the default transformations and `convert_xor=True`).
A bare `=` is Python assignment syntax, not an expression, so any text
with a top-level `=` raises `SympifyError`; the same holds for
unbalanced brackets and stray operators.  The model below is a
recursive-descent parser for the expression fragment over the
sanitizer's alphabet: integers, identifiers, `+ - * / ^` (caret mapped
to power by `convert_xor`), parentheses and unary minus.  Fuel makes
the recursion structural; the initial fuel is always sufficient. -/

/-- Digits of an integer literal to its value. -/
def digitsToInt (run : List Char) : Int :=
  Int.ofNat (run.foldl (fun acc c => acc * 10 + (c.toNat - 48)) 0)

/-- Identifier characters (Python identifiers from the OCR alphabet:
letters then letters or digits). -/
def isIdentChar (c : Char) : Bool := c.isAlpha || c.isDigit

/-- One parsing step, indexed by fuel and a mode: 0 = sum, 10 = sum
tail, 1 = product, 11 = product tail, 2 = power, 3 = atom.  Tail modes
carry the expression parsed so far (left associativity, as in Python). -/
def parseStep : Nat → Nat → Option SymExpr → List Char → Except (List Char) (SymExpr × List Char)
  | 0, _, _, _ => .error ("fuel exhausted".toList)
  | n + 1, 0, _, input => do
      let t ← parseStep n 1 none input
      parseStep n 10 (some t.1) t.2
  | n + 1, 10, some acc, input =>
      match input with
      | '+' :: r => do
          let t ← parseStep n 1 none r
          parseStep n 10 (some (SymExpr.addE acc t.1)) t.2
      | '-' :: r => do
          let t ← parseStep n 1 none r
          parseStep n 10 (some (SymExpr.subE acc t.1)) t.2
      | rest => pure (acc, rest)
  | n + 1, 1, _, input => do
      let t ← parseStep n 2 none input
      parseStep n 11 (some t.1) t.2
  | n + 1, 11, some acc, input =>
      match input with
      | '*' :: r => do
          let t ← parseStep n 2 none r
          parseStep n 11 (some (SymExpr.mulE acc t.1)) t.2
      | '/' :: r => do
          let t ← parseStep n 2 none r
          parseStep n 11 (some (SymExpr.divE acc t.1)) t.2
      | rest => pure (acc, rest)
  | n + 1, 2, _, input => do
      let b ← parseStep n 3 none input
      match b.2 with
      | '^' :: r => do
          let e ← parseStep n 2 none r
          pure (SymExpr.powE b.1 e.1, e.2)
      | rest => pure (b.1, rest)
  | n + 1, 3, _, input =>
      match input with
      | [] => .error ("unexpected end of input".toList)
      | c :: cs =>
          if c.isDigit then
            pure (SymExpr.intL (digitsToInt ((c :: cs).takeWhile Char.isDigit)),
              (c :: cs).dropWhile Char.isDigit)
          else if c.isAlpha then
            pure (SymExpr.symb ((c :: cs).takeWhile isIdentChar),
              (c :: cs).dropWhile isIdentChar)
          else if c == '(' then do
            let e ← parseStep n 0 none cs
            match e.2 with
            | ')' :: r => pure (e.1, r)
            | _ => .error ("unbalanced parenthesis".toList)
          else if c == '-' then do
            let e ← parseStep n 2 none cs
            pure (SymExpr.negE e.1, e.2)
          else .error ("unexpected token".toList)
  | _, _, _, _ => .error ("bad parser state".toList)

/-- Model of `sp.sympify`: parse the whole text as an expression; any
leftover input (for instance everything after a top-level `=`) or parse
failure raises, modelled as a uniform could-not-parse message. -/
def sympifyParse (s : List Char) : Except (List Char) SymExpr :=
  match parseStep (4 * s.length + 16) 0 none s with
  | .ok (e, []) => .ok e
  | _ => .error ("could not parse: ".toList ++ s)

/-- Free symbols of an expression in left-to-right order of discovery. -/
def collectSyms : SymExpr → List (List Char)
  | .intL _ => []
  | .symb n => [n]
  | .addE a b => collectSyms a ++ collectSyms b
  | .subE a b => collectSyms a ++ collectSyms b
  | .mulE a b => collectSyms a ++ collectSyms b
  | .divE a b => collectSyms a ++ collectSyms b
  | .powE a b => collectSyms a ++ collectSyms b
  | .negE a => collectSyms a
  | .equality a b => collectSyms a ++ collectSyms b

/-- A concrete instance of the algebra capability: `sympify` is the
parser model above; the free-symbol enumerations use left-to-right
discovery order, which is one admissible enumeration of the underlying
Python set (no theorem below depends on the choice); the solve and
rendering operations return fixed placeholder text, since no claim
inspects the text of a successful solve. -/
def sympyCap : AlgebraCap where
  sympify := sympifyParse
  freeSymbols := fun e => (collectSyms e).dedup
  unionFreeSymbols := fun es => (es.foldr (fun e acc => collectSyms e ++ acc) []).dedup
  solveOne := fun _ _ => .ok ("<solution latex>".toList, "<solution>".toList)
  solveMany := fun _ _ => .ok ("<solution latex>".toList, "<solution>".toList)
  pretty := fun _ => "<expr>".toList
  showVars := fun _ => "<vars>".toList
  showEqs := fun _ => "<eqs>".toList

/-! ## Graph sampling (`MathSolverService.build_graph_data`) -/

/-- A numeric value as produced by NumPy float evaluation: a finite
value (idealised as an exact rational) or a non-finite one. -/
inductive NumVal
  | fin (q : ℚ)
  | posInf
  | negInf
  | nanV
deriving DecidableEq

/-- Is the value finite? -/
def NumVal.isFinite : NumVal → Bool
  | .fin _ => true
  | _ => false

/-- Truthiness of `sp.Float(v)` in the list comprehension
`[float(v) if sp.Float(v) else None for v in ys]`: a SymPy number is
falsy exactly when it is zero; infinities and nan are nonzero, hence
truthy, so their `float(...)` value is kept. -/
def floatTruthy : NumVal → Bool
  | .fin q => decide (q ≠ 0)
  | _ => true

/-- `np.linspace a b n`: `n` evenly spaced points from `a` to `b`
inclusive (idealised to exact rationals). -/
def linspace (a b : ℚ) (n : Nat) : List ℚ :=
  (List.range n).map (fun k : Nat => a + (b - a) * (k : ℚ) / ((n : ℚ) - 1))

/-- The record returned by `build_graph_data`. -/
structure GraphData where
  x : List ℚ
  y : List (Option NumVal)
  expression : List Char
deriving DecidableEq

/-- `MathSolverService.build_graph_data`, parametrised by `f`, the
numeric evaluation of the lambdified expression at a sample point
(the external NumPy capability).  400 points over [-10, 10]; each
`y`-entry is `float(v)` when `sp.Float(v)` is truthy, else `None`. -/
def build_graph_data (f : ℚ → NumVal) (expression : List Char) : GraphData :=
  let xs := linspace (-10) 10 400
  { x := xs
  , y := xs.map (fun q => if floatTruthy (f q) then some (f q) else none)
  , expression := expression }

/-- NumPy evaluation of the expression with text x-caret-2 at a point:
exact squaring, always finite. -/
def evalSquare (q : ℚ) : NumVal := NumVal.fin (q * q)

/-- NumPy evaluation of `1/(x+10)` at a point: division of the float 1
by the float `x+10`; at `x = -10` the denominator is exactly zero and
IEEE/NumPy division yields positive infinity (a warning, not an
exception). -/
def evalInvShift (q : ℚ) : NumVal :=
  if q + 10 = 0 then NumVal.posInf else NumVal.fin (1 / (q + 10))

/-! ## The route (`routes/solve.py::solve_equation`) -/

/-- Result of the OCR service's `try` block in
`extract_math_from_image`: `fail` when any exception was raised inside
it (base64 payload not decodable, `Image.open` rejecting the bytes,
tesseract failing), `ok raw conf` when OCR produced raw text `raw`
with computed confidence `conf` (the confidence arithmetic is float
code not inspected by any claim, so the value is carried opaquely). -/
inductive OcrOutcome
  | fail
  | ok (raw : List Char) (conf : ℚ)

/-- `OCRService.extract_math_from_image`: on success the raw text is
cleaned by `_clean_math_text`; on any exception the service swallows it
and returns empty text with confidence `0.0`. -/
def extract_math_from_image : OcrOutcome → List Char × ℚ
  | .fail => ([], 0)
  | .ok raw conf => (_clean_math_text raw, conf)

/-- The forbidden-token list of the route-level check
`any(bad in latex for bad in [dunder, import-kw, exec-kw, lambda-kw])`. -/
def FORBIDDEN : List (List Char) :=
  ["__".toList, "import".toList, "exec".toList, "lambda".toList]

/-- The route's sanitization check, applied to the OCR output `latex`. -/
def containsForbidden (latex : List Char) : Bool :=
  FORBIDDEN.any (fun b => isSubB b latex)

/-- A route response: an `HTTPException` with status code and detail, or
the success payload `SolveResponse`. -/
inductive RouteResult
  | err (code : Nat) (detail : List Char)
  | ok (expression solution steps : List Char) (graph : Option GraphData) (confidence : ℚ)
deriving DecidableEq

/-- Is the response an `HTTPException`? -/
def RouteResult.isErr : RouteResult → Bool
  | .err _ _ => true
  | _ => false

/-- The expression field forwarded in a success response, if any. -/
def RouteResult.exprField : RouteResult → Option (List Char)
  | .ok e _ _ _ _ => some e
  | _ => none

/-- The body of `routes/solve.py::solve_equation` after the
`_rate_limit` call (the admission controller is modelled separately):
reject an absent image with 400; run OCR; reject empty text with 422;
reject text containing a forbidden token with 400; call
`solve_generic` — whose own handler makes it total, so the route's
`except` around it never fires; attach best-effort graph data
(`graphTry latex` models the `try build_graph_data except None`); and
return the success payload.  `cap` is the algebra capability and
`graphTry` the graph attempt. -/
def solve_equation (cap : AlgebraCap) (graphTry : List Char → Option GraphData)
    (imageMissing : Bool) (ocr : OcrOutcome) : RouteResult :=
  if imageMissing then .err 400 ("Image is required".toList)
  else
    let r := extract_math_from_image ocr
    if r.1.isEmpty then .err 422 ("Unable to read equation".toList)
    else if containsForbidden r.1 then .err 400 ("Invalid expression content".toList)
    else
      let s := solve_generic cap r.1
      .ok r.1 s.1 s.2 (graphTry r.1) r.2

/-- A graph attempt that always fails (route falls back to `None`);
used to instantiate route-level statements whose graph content is
irrelevant. -/
def noGraph : List Char → Option GraphData := fun _ => none

/-! # Theorems -/

/-! ## Lemmas about the replacement scan -/

/-- A successful Boolean prefix test decomposes the list. -/
theorem isPrefixB_eq_append : ∀ (p l : List Char), isPrefixB p l = true → l = p ++ l.drop p.length
  | [], l, _ => rfl
  | p :: ps, [], h => by simp [isPrefixB] at h
  | p :: ps, c :: cs, h => by
      simp only [isPrefixB, Bool.and_eq_true, beq_iff_eq] at h
      obtain ⟨rfl, h2⟩ := h
      simpa using isPrefixB_eq_append ps cs h2

/-- Characters of the output of one replacement pass come from the
input or from the replacement text. -/
theorem mem_replaceFuel (p r : List Char) :
    ∀ (n : Nat) (l : List Char) (c : Char), c ∈ replaceFuel p r n l → c ∈ l ∨ c ∈ r := by
  intro n
  induction n with
  | zero =>
      intro l c h
      cases l with
      | nil => simp [replaceFuel] at h
      | cons a as => exact Or.inl h
  | succ n ih =>
      intro l c h
      cases l with
      | nil => simp [replaceFuel] at h
      | cons a as =>
          by_cases hg : (!p.isEmpty && isPrefixB p (a :: as)) = true
          · rw [replaceFuel, if_pos hg] at h
            rcases List.mem_append.1 h with h1 | h1
            · exact Or.inr h1
            · rcases ih _ _ h1 with h2 | h2
              · exact Or.inl (List.mem_cons_of_mem _ (List.mem_of_mem_drop h2))
              · exact Or.inr h2
          · rw [replaceFuel, if_neg hg] at h
            rcases List.mem_cons.1 h with h1 | h1
            · exact Or.inl (h1 ▸ List.mem_cons_self _ _)
            · rcases ih _ _ h1 with h2 | h2
              · exact Or.inl (List.mem_cons_of_mem _ h2)
              · exact Or.inr h2

/-- If the pattern does not occur in the text, a replacement pass is the
identity (for any fuel). -/
theorem replaceFuel_of_not_sub (p r : List Char) :
    ∀ (n : Nat) (l : List Char), isSubB p l = false → replaceFuel p r n l = l := by
  intro n
  induction n with
  | zero => intro l _; cases l <;> rfl
  | succ n ih =>
      intro l h
      cases l with
      | nil => rfl
      | cons a as =>
          simp only [isSubB, Bool.or_eq_false_iff] at h
          have hg : (!p.isEmpty && isPrefixB p (a :: as)) = false := by
            simp [h.1]
          rw [replaceFuel, if_neg (by simp [hg])]
          rw [ih as h.2]

/-- Replacing a pattern by itself is the identity when the fuel covers
the input. -/
theorem replaceFuel_self (p : List Char) :
    ∀ (n : Nat) (l : List Char), l.length ≤ n → replaceFuel p p n l = l := by
  intro n
  induction n with
  | zero =>
      intro l hl
      have : l = [] := List.eq_nil_of_length_eq_zero (Nat.le_zero.1 hl)
      subst this; rfl
  | succ n ih =>
      intro l hl
      cases l with
      | nil => rfl
      | cons a as =>
          by_cases hg : (!p.isEmpty && isPrefixB p (a :: as)) = true
          · have hpre : isPrefixB p (a :: as) = true := by
              have hg' := hg
              simp only [Bool.and_eq_true] at hg'
              exact hg'.2
            have hsplit := isPrefixB_eq_append p (a :: as) hpre
            have hdrop : (a :: as).drop p.length = as.drop (p.length - 1) := by
              cases p with
              | nil => simp [isPrefixB] at hg
              | cons q qs => simp
            rw [replaceFuel, if_pos hg]
            have hlen : (as.drop (p.length - 1)).length ≤ n := by
              have := List.length_drop (p.length - 1) as
              simp only [List.length_cons] at hl
              omega
            rw [ih _ hlen, ← hdrop, ← hsplit]
          · rw [replaceFuel, if_neg hg]
            have : as.length ≤ n := by simp only [List.length_cons] at hl; omega
            rw [ih as this]

/-- A single-character pattern is eliminated entirely: if the character
does not occur in the replacement, it does not occur in the output. -/
theorem replaceFuel_single_elim (a : Char) (r : List Char) (har : a ∉ r) :
    ∀ (n : Nat) (l : List Char), l.length ≤ n → a ∉ replaceFuel [a] r n l := by
  intro n
  induction n with
  | zero =>
      intro l hl
      have : l = [] := List.eq_nil_of_length_eq_zero (Nat.le_zero.1 hl)
      subst this; simp [replaceFuel]
  | succ n ih =>
      intro l hl
      cases l with
      | nil => simp [replaceFuel]
      | cons c cs =>
          have hlen : cs.length ≤ n := by simp only [List.length_cons] at hl; omega
          by_cases hac : a = c
          · subst hac
            have hg : (!([a] : List Char).isEmpty && isPrefixB [a] (a :: cs)) = true := by
              simp [isPrefixB]
            rw [replaceFuel, if_pos hg]
            intro hmem
            rcases List.mem_append.1 hmem with h1 | h1
            · exact har h1
            · exact ih (cs.drop 0) (by simpa using hlen) (by simpa using h1)
          · have hpref : isPrefixB [a] (c :: cs) = false := by
              show ((a == c) && isPrefixB [] cs) = false
              simp [hac]
            rw [replaceFuel, if_neg (by simp [hpref])]
            intro hmem
            rcases List.mem_cons.1 hmem with h1 | h1
            · exact hac h1
            · exact ih cs hlen h1

/-- Characters of the output of the whole substitution table come from
the input or from one of the replacement texts. -/
theorem mem_applyAll : ∀ (tbl : List (List Char × List Char)) (l : List Char) (c : Char),
    c ∈ applyAll tbl l → c ∈ l ∨ ∃ pr ∈ tbl, c ∈ pr.2 := by
  intro tbl
  induction tbl with
  | nil => intro l c h; exact Or.inl h
  | cons pr rest ih =>
      intro l c h
      have h' : c ∈ applyAll rest (pyReplace pr.1 pr.2 l) := h
      rcases ih _ _ h' with h1 | ⟨pr', hpr', hc⟩
      · rcases mem_replaceFuel pr.1 pr.2 _ _ _ h1 with h2 | h2
        · exact Or.inl h2
        · exact Or.inr ⟨pr, List.mem_cons_self _ _, h2⟩
      · exact Or.inr ⟨pr', List.mem_cons_of_mem _ hpr', hc⟩

/-- If every table entry leaves the text unchanged, so does the whole
table. -/
theorem applyAll_id : ∀ (tbl : List (List Char × List Char)) (l : List Char),
    (∀ pr ∈ tbl, pyReplace pr.1 pr.2 l = l) → applyAll tbl l = l := by
  intro tbl
  induction tbl with
  | nil => intro l _; rfl
  | cons pr rest ih =>
      intro l h
      have h0 := h pr (List.mem_cons_self _ _)
      have : applyAll (pr :: rest) l = applyAll rest (pyReplace pr.1 pr.2 l) := rfl
      rw [this, h0]
      exact ih l (fun pr' hpr' => h pr' (List.mem_cons_of_mem _ hpr'))

/-- A character whose single-character rule sits in the table, whose
replacement avoids it, and which no later replacement reintroduces, is
absent from the output of the whole table. -/
theorem not_mem_applyAll_elim (a : Char) (t1 t2 : List (List Char × List Char)) (r : List Char)
    (har : a ∉ r) (ht2 : ∀ pr ∈ t2, a ∉ pr.2) (l : List Char) :
    a ∉ applyAll (t1 ++ ([a], r) :: t2) l := by
  have hsplit : applyAll (t1 ++ ([a], r) :: t2) l
      = applyAll t2 (pyReplace [a] r (applyAll t1 l)) := by
    unfold applyAll
    rw [List.foldl_append]
    rfl
  rw [hsplit]
  intro hmem
  rcases mem_applyAll t2 _ a hmem with h1 | ⟨pr, hpr, hc⟩
  · exact replaceFuel_single_elim a r har _ _ le_rfl h1
  · exact ht2 pr hpr hc

/-- Membership in the stripped string implies membership before the
strip. -/
theorem mem_of_mem_pyStrip (l : List Char) (c : Char) (h : c ∈ pyStrip l) : c ∈ l := by
  unfold pyStrip at h
  have h1 := List.mem_reverse.1 h
  have h2 := (List.dropWhile_sublist _).mem h1
  have h3 := List.mem_reverse.1 h2
  exact (List.dropWhile_sublist _).mem h3

/-- Stripping a whitespace-free string is the identity. -/
theorem pyStrip_id_of_no_ws (l : List Char) (h : ∀ c ∈ l, isPySpace c = false) :
    pyStrip l = l := by
  have key : ∀ (m : List Char), (∀ c ∈ m, isPySpace c = false) → m.dropWhile isPySpace = m := by
    intro m hm
    cases m with
    | nil => rfl
    | cons a as =>
        rw [List.dropWhile_cons, if_neg (by simp [hm a (List.mem_cons_self _ _)])]
  unfold pyStrip
  rw [key l h]
  rw [key l.reverse (fun c hc => h c (List.mem_reverse.1 hc))]
  exact List.reverse_reverse l

/-- Characters of the sanitizer output come from the post-substitution
text. -/
theorem mem_clean (s : List Char) (c : Char) (h : c ∈ _clean_math_text s) :
    c ∈ applyAll REPLACEMENTS (s.filter (fun c => !isPySpace c)) := by
  unfold _clean_math_text brokenCharStrip at h
  exact mem_of_mem_pyStrip _ _ h

/-- The sanitizer output contains no whitespace. -/
theorem clean_no_whitespace (s : List Char) (c : Char) (h : c ∈ _clean_math_text s) :
    isPySpace c = false := by
  rcases mem_applyAll REPLACEMENTS _ c (mem_clean s c h) with h2 | ⟨pr, hpr, hc⟩
  · have := (List.mem_filter.1 h2).2
    simpa using this
  · have hall : ∀ pr ∈ REPLACEMENTS, ∀ c ∈ pr.2, isPySpace c = false := by decide
    exact hall pr hpr c hc

/-- A character with a single-character elimination rule at position `k`
of the table never survives the sanitizer. -/
theorem clean_char_eliminated (d : Char) (rd : List Char) (k : Nat)
    (hsplit : REPLACEMENTS = REPLACEMENTS.take k ++ ([d], rd) :: REPLACEMENTS.drop (k + 1))
    (hr : d ∉ rd) (ht2 : ∀ pr ∈ REPLACEMENTS.drop (k + 1), d ∉ pr.2)
    (s : List Char) : d ∉ _clean_math_text s := by
  intro h
  have h1 := mem_clean s d h
  rw [hsplit] at h1
  exact not_mem_applyAll_elim d _ _ rd hr ht2 _ h1

/-! ## C10: character exclusions of the sanitizer output -/

/-- C10.  For every input string, the sanitizer output contains no
whitespace, no lowercase letter x, and none of the multiplication sign,
division sign, or square/curly bracket characters: the letter x and the
multiplication sign are mapped to the star, the division sign to the
slash, and every bracket variant to a round parenthesis, so no cleaned
expression handed to the classifier can name the variable x by that
letter. -/
theorem cleaned_text_char_exclusions (s : List Char) (c : Char) (h : c ∈ _clean_math_text s) :
    isPySpace c = false ∧ c ≠ 'x' ∧ c ≠ '×' ∧ c ≠ '÷' ∧
      c ≠ '[' ∧ c ≠ ']' ∧ c ≠ '\x7b' ∧ c ≠ '\x7d' := by
  refine ⟨clean_no_whitespace s c h, ?_, ?_, ?_, ?_, ?_, ?_, ?_⟩
  · rintro rfl
    exact clean_char_eliminated 'x' ("*".toList) 0 (by decide) (by decide) (by decide) s h
  · rintro rfl
    exact clean_char_eliminated '×' ("*".toList) 1 (by decide) (by decide) (by decide) s h
  · rintro rfl
    exact clean_char_eliminated '÷' ("/".toList) 2 (by decide) (by decide) (by decide) s h
  · rintro rfl
    exact clean_char_eliminated '[' ("(".toList) 8 (by decide) (by decide) (by decide) s h
  · rintro rfl
    exact clean_char_eliminated ']' (")".toList) 9 (by decide) (by decide) (by decide) s h
  · rintro rfl
    exact clean_char_eliminated '\x7b' ("(".toList) 10 (by decide) (by decide) (by decide) s h
  · rintro rfl
    exact clean_char_eliminated '\x7d' (")".toList) 11 (by decide) (by decide) (by decide) s h

/-- Witness for C10: the star produced from the input x-space-2 is in
the cleaned output and satisfies all the exclusions. -/
theorem cleaned_text_char_exclusions_witness :
    '*' ∈ _clean_math_text ("x 2".toList) ∧
      (isPySpace '*' = false ∧ '*' ≠ 'x' ∧ '*' ≠ '×' ∧ '*' ≠ '÷' ∧
        '*' ≠ '[' ∧ '*' ≠ ']' ∧ '*' ≠ '\x7b' ∧ '*' ≠ '\x7d') :=
  ⟨by decide, cleaned_text_char_exclusions ("x 2".toList) '*' (by decide)⟩

/-! ## C9: idempotence of the sanitizer -/

/-- C9, counterexample.  The sanitizer is not idempotent: on the input
loglog1010 one pass gives loglog10 (the scan resumes after the inserted
replacement, leaving a fresh occurrence of the log10 key), and a second
pass shortens it further to loglog. -/
theorem clean_not_idempotent_loglog1010 :
    _clean_math_text (_clean_math_text ("loglog1010".toList))
        ≠ _clean_math_text ("loglog1010".toList)
    ∧ _clean_math_text ("loglog1010".toList) = "loglog10".toList
    ∧ _clean_math_text ("loglog10".toList) = "loglog".toList := by
  refine ⟨?_, by decide, by decide⟩
  decide

/-- C9, amended.  The sanitizer is idempotent on every input whose
cleaned output contains no occurrence of a substitution key with a
non-identity replacement; general idempotence fails (see the
counterexample). -/
theorem clean_idempotent_of_no_active_key (s : List Char)
    (h : ∀ pr ∈ REPLACEMENTS, pr.1 = pr.2 ∨ isSubB pr.1 (_clean_math_text s) = false) :
    _clean_math_text (_clean_math_text s) = _clean_math_text s := by
  have hws : ∀ c ∈ _clean_math_text s, isPySpace c = false :=
    fun c hc => clean_no_whitespace s c hc
  have hfilter : (_clean_math_text s).filter (fun c => !isPySpace c) = _clean_math_text s :=
    List.filter_eq_self.2 (fun c hc => by simp [hws c hc])
  have happly : applyAll REPLACEMENTS (_clean_math_text s) = _clean_math_text s := by
    apply applyAll_id
    intro pr hpr
    rcases h pr hpr with h1 | h1
    · rw [h1]
      exact replaceFuel_self pr.2 _ _ le_rfl
    · exact replaceFuel_of_not_sub pr.1 pr.2 _ _ h1
  have hstrip : pyStrip (_clean_math_text s) = _clean_math_text s :=
    pyStrip_id_of_no_ws _ hws
  conv_lhs => rw [_clean_math_text]
  rw [hfilter]
  unfold brokenCharStrip
  rw [happly, hstrip]

/-- Witness for C9's amended theorem: the cleaned form of 2+3 contains
no non-identity key, and cleaning is idempotent there. -/
theorem clean_idempotent_of_no_active_key_witness :
    (∀ pr ∈ REPLACEMENTS, pr.1 = pr.2 ∨ isSubB pr.1 (_clean_math_text ("2+3".toList)) = false)
    ∧ _clean_math_text (_clean_math_text ("2+3".toList)) = _clean_math_text ("2+3".toList) :=
  ⟨by decide, clean_idempotent_of_no_active_key ("2+3".toList) (by decide)⟩

/-! ## C1: the forbidden-token rejection -/

/-- C1, amended.  The route's forbidden-token check runs on the
sanitized text: whenever the cleaned OCR output contains a forbidden
token, the route rejects with the bad-input error 400 Invalid
expression content and the solver is never reached — for every algebra
capability, graph attempt and confidence. -/
theorem forbidden_in_cleaned_text_rejected (cap : AlgebraCap)
    (g : List Char → Option GraphData) (raw : List Char) (conf : ℚ)
    (h : containsForbidden (_clean_math_text raw) = true) :
    solve_equation cap g false (.ok raw conf)
      = .err 400 ("Invalid expression content".toList) := by
  have hne : (_clean_math_text raw).isEmpty = false := by
    cases hl : (_clean_math_text raw).isEmpty
    · rfl
    · exfalso
      have hnil : _clean_math_text raw = [] := by
        cases hm : _clean_math_text raw
        · rfl
        · rw [hm] at hl; simp at hl
      rw [hnil] at h
      exact absurd h (by decide)
  unfold solve_equation extract_math_from_image
  simp [hne, h]

/-- Witness for C1's amended theorem: the raw text import1+1 survives
cleaning unchanged, contains the import token, and is rejected. -/
theorem forbidden_in_cleaned_text_rejected_witness :
    containsForbidden (_clean_math_text ("import1+1".toList)) = true
    ∧ solve_equation sympyCap noGraph false (.ok ("import1+1".toList) 50)
        = .err 400 ("Invalid expression content".toList) :=
  ⟨by decide, forbidden_in_cleaned_text_rejected sympyCap noGraph ("import1+1".toList) 50 (by decide)⟩

/-- C1, counterexample.  The raw OCR text exec contains the forbidden
token exec, yet the request is not rejected: the substitution pass
rewrites the letter x to a star first, so the check sees e-star-ec,
finds no forbidden token, and the repaired text is forwarded to the
solver, producing a success response whose expression field is the
repaired text. -/
theorem raw_exec_forwarded_not_rejected :
    isSubB ("exec".toList) ("exec".toList) = true
    ∧ (solve_equation sympyCap noGraph false (.ok ("exec".toList) 50)).isErr = false
    ∧ (solve_equation sympyCap noGraph false (.ok ("exec".toList) 50)).exprField
        = some ("e*ec".toList) := by
  refine ⟨by decide, by decide, by decide⟩

/-! ## C2: solver exceptions -/

/-- C2, amended.  Any exception inside the solver body is caught by
solve_generic's own handler and converted into a normally-returned pair
carrying the attempted expression; the route's except branch is dead
code, so the failure is returned to the caller as a success response
(HTTP 200) rather than as an unprocessable error, and no unhandled
fault propagates. -/
theorem solver_exception_returned_as_success (cap : AlgebraCap)
    (g : List Char → Option GraphData) (raw : List Char) (conf : ℚ) (e : List Char)
    (h1 : (_clean_math_text raw).isEmpty = false)
    (h2 : containsForbidden (_clean_math_text raw) = false)
    (h3 : solve_generic_body cap (_clean_math_text raw) = .error e) :
    solve_equation cap g false (.ok raw conf)
      = .ok (_clean_math_text raw) ("Error: ".toList ++ e)
          ("Failed to solve: ".toList ++ _clean_math_text raw)
          (g (_clean_math_text raw)) conf := by
  unfold solve_equation extract_math_from_image solve_generic
  simp [h1, h2, h3]

/-- Witness for C2's amended theorem: on the cleaned text consisting of
a lone opening parenthesis the sympify model raises, and the route
returns a success payload carrying the error text. -/
theorem solver_exception_returned_as_success_witness :
    (_clean_math_text ("(".toList)).isEmpty = false
    ∧ containsForbidden (_clean_math_text ("(".toList)) = false
    ∧ solve_generic_body sympyCap (_clean_math_text ("(".toList))
        = .error ("could not parse: (".toList)
    ∧ solve_equation sympyCap noGraph false (.ok ("(".toList) 50)
        = .ok (_clean_math_text ("(".toList))
            ("Error: ".toList ++ "could not parse: (".toList)
            ("Failed to solve: ".toList ++ _clean_math_text ("(".toList))
            (noGraph (_clean_math_text ("(".toList))) 50 :=
  ⟨by decide, by decide, by rfl,
    solver_exception_returned_as_success sympyCap noGraph ("(".toList) 50
      ("could not parse: (".toList) (by decide) (by decide) (by rfl)⟩

/-- C2, counterexample.  On the expression consisting of a lone opening
parenthesis the algebra capability raises, yet the caller receives a
success response, not an unprocessable error: the claim that a failed
solve is never returned as a successful response is false. -/
theorem sympify_error_surfaced_as_success :
    sympyCap.sympify ("(".toList) = .error ("could not parse: (".toList)
    ∧ (solve_equation sympyCap noGraph false (.ok ("(".toList) 50)).isErr = false :=
  ⟨by rfl, by decide⟩

/-! ## C3: the round-trip scenario for x+1=2 -/

/-- C3.  The cleaned text x+1=2 is not classified as an equation and is
not solved: SymPy's sympify parses its argument as a Python expression,
in which a bare equals sign is invalid syntax, so it raises; the
handler converts this into the error pair carrying the attempted
expression, and the route returns that pair inside a success response
instead of the solution set containing 1. -/
theorem equation_with_equals_sign_fails_to_solve :
    solve_generic sympyCap ("x+1=2".toList)
      = ("Error: could not parse: x+1=2".toList, "Failed to solve: x+1=2".toList)
    ∧ (solve_equation sympyCap noGraph false (.ok ("x+1=2".toList) 50)).exprField
        = some ("*+1=2".toList) := by
  exact ⟨by rfl, by decide⟩

/-! ## C7: undecodable image payloads -/

/-- C7, counterexample.  An undecodable payload is swallowed inside the
OCR service's try block, which returns empty text; the route then
answers with the unprocessable error 422 Unable to read equation — the
very same response as for empty recognition output — not with a
distinct bad-input error. -/
theorem decode_failure_not_bad_input :
    solve_equation sympyCap noGraph false OcrOutcome.fail
      = .err 422 ("Unable to read equation".toList)
    ∧ solve_equation sympyCap noGraph false (.ok [] 50)
      = .err 422 ("Unable to read equation".toList) :=
  ⟨by decide, by decide⟩

/-- C7, amended.  For every algebra capability, graph attempt and
confidence: a payload whose decoding raises makes the OCR service
return empty text with confidence zero, and the route surfaces it as
the 422 unprocessable error Unable to read equation, identical to the
response for empty recognition output; no retry happens anywhere. -/
theorem decode_failure_surfaces_as_unprocessable (cap : AlgebraCap)
    (g : List Char → Option GraphData) (conf : ℚ) :
    extract_math_from_image OcrOutcome.fail = ([], 0)
    ∧ solve_equation cap g false OcrOutcome.fail
        = .err 422 ("Unable to read equation".toList)
    ∧ solve_equation cap g false (.ok [] conf)
        = .err 422 ("Unable to read equation".toList) := by
  refine ⟨rfl, rfl, ?_⟩
  unfold solve_equation extract_math_from_image
  simp [show _clean_math_text [] = [] from by decide]

/-! ## Lemmas for the admission controller -/

/-- Filtering with a weaker predicate keeps at least as many elements. -/
theorem length_filter_mono (l : List ℚ) (p q : ℚ → Bool)
    (h : ∀ s ∈ l, p s = true → q s = true) :
    (l.filter p).length ≤ (l.filter q).length := by
  induction l with
  | nil => simp
  | cons a as ih =>
      have ih' := ih (fun s hs => h s (List.mem_cons_of_mem _ hs))
      cases hpa : p a with
      | true =>
          have hqa := h a (List.mem_cons_self _ _) hpa
          simp [List.filter_cons, hpa, hqa]
          omega
      | false =>
          cases hqa : q a with
          | true =>
              simp [List.filter_cons, hpa, hqa]
              omega
          | false =>
              simp [List.filter_cons, hpa, hqa]
              omega

/-- Pruning an already-pruned bucket with a later window start prunes
to the later window. -/
theorem filter_window_comp (adm : List ℚ) (last t : ℚ) (hlt : last ≤ t) :
    ((adm.filter (fun s => decide (last - _WINDOW_SECONDS ≤ s))).filter
        (fun s => decide (t - _WINDOW_SECONDS ≤ s)))
      = adm.filter (fun s => decide (t - _WINDOW_SECONDS ≤ s)) := by
  rw [List.filter_filter]
  apply List.filter_congr
  intro s _
  by_cases h : t - _WINDOW_SECONDS ≤ s
  · have h2 : last - _WINDOW_SECONDS ≤ s := le_trans (by linarith) h
    simp [h, h2]
  · simp [h]

/-- The last element of a nonempty list with default is a member. -/
theorem getLastD_mem_cons_rat (t : ℚ) (ts : List ℚ) : ts.getLastD t ∈ t :: ts := by
  cases ts with
  | nil => simp
  | cons a as =>
      have : (a :: as).getLastD t = (a :: as).getLast (by simp) := by
        rw [List.getLastD_eq_getLast?, List.getLast?_eq_getLast (a :: as) (by simp)]
        rfl
      rw [this]
      exact List.mem_cons_of_mem _ (List.getLast_mem _)

/-- On a full pruned bucket, `_rate_limit` denies and returns the
pruned bucket. -/
theorem rate_limit_denied (bucket : List ℚ) (now : ℚ)
    (h : _MAX_CALLS ≤ (bucket.filter (fun s => decide (now - _WINDOW_SECONDS ≤ s))).length) :
    _rate_limit bucket now
      = (false, bucket.filter (fun s => decide (now - _WINDOW_SECONDS ≤ s))) := by
  unfold _rate_limit
  rw [if_pos h]

/-- On a non-full pruned bucket, `_rate_limit` admits and appends the
call time. -/
theorem rate_limit_admitted (bucket : List ℚ) (now : ℚ)
    (h : ¬ _MAX_CALLS ≤ (bucket.filter (fun s => decide (now - _WINDOW_SECONDS ≤ s))).length) :
    _rate_limit bucket now
      = (true, bucket.filter (fun s => decide (now - _WINDOW_SECONDS ≤ s)) ++ [now]) := by
  unfold _rate_limit
  rw [if_neg h]

/-- Unfolding `runCallsFrom` across a denied call. -/
theorem runCallsFrom_cons_denied {bucket b2 : List ℚ} {t : ℚ} (admitted : List ℚ) (ts : List ℚ)
    (h : _rate_limit bucket t = (false, b2)) :
    runCallsFrom bucket admitted (t :: ts) = runCallsFrom b2 admitted ts := by
  simp only [runCallsFrom]
  rw [h]

/-- Unfolding `runCallsFrom` across an admitted call. -/
theorem runCallsFrom_cons_admitted {bucket b2 : List ℚ} {t : ℚ} (admitted : List ℚ) (ts : List ℚ)
    (h : _rate_limit bucket t = (true, b2)) :
    runCallsFrom bucket admitted (t :: ts) = runCallsFrom b2 (admitted ++ [t]) ts := by
  simp only [runCallsFrom]
  rw [h]

/-- Invariant of the admission controller, by induction over the call
sequence.  Starting from the (ghost) list `admitted` of all call times
admitted so far, all at most `last`, with the real bucket equal to
`admitted` pruned to the window ending at `last`, and with at most
`_MAX_CALLS` admitted times in every sliding window: after any
chronologically ordered sequence of further calls, the same three
statements hold at the new last call time. -/
theorem runCallsFrom_spec (ts : List ℚ) :
    ∀ (admitted : List ℚ) (last : ℚ),
      List.Chain (· ≤ ·) last ts →
      (∀ s ∈ admitted, s ≤ last) →
      (∀ a : ℚ, ((admitted.filter (inWindow a)).length ≤ _MAX_CALLS)) →
      (∀ s ∈ (runCallsFrom (admitted.filter (fun s => decide (last - _WINDOW_SECONDS ≤ s))) admitted ts).2,
          s ≤ ts.getLastD last)
      ∧ (runCallsFrom (admitted.filter (fun s => decide (last - _WINDOW_SECONDS ≤ s))) admitted ts).1
          = (runCallsFrom (admitted.filter (fun s => decide (last - _WINDOW_SECONDS ≤ s))) admitted ts).2.filter
              (fun s => decide (ts.getLastD last - _WINDOW_SECONDS ≤ s))
      ∧ (∀ a : ℚ,
          (((runCallsFrom (admitted.filter (fun s => decide (last - _WINDOW_SECONDS ≤ s))) admitted ts).2.filter
              (inWindow a)).length ≤ _MAX_CALLS)) := by
  induction ts with
  | nil =>
      intro admitted last _ hle hcount
      exact ⟨hle, rfl, hcount⟩
  | cons t ts' ih =>
      intro admitted last hchain hle hcount
      have hlt : last ≤ t := List.rel_of_chain_cons hchain
      have hchain' : List.Chain (· ≤ ·) t ts' := List.chain_of_chain_cons hchain
      have hprune :
          (admitted.filter (fun s => decide (last - _WINDOW_SECONDS ≤ s))).filter
              (fun s => decide (t - _WINDOW_SECONDS ≤ s))
            = admitted.filter (fun s => decide (t - _WINDOW_SECONDS ≤ s)) :=
        filter_window_comp admitted last t hlt
      rw [List.getLastD_cons]
      by_cases hfull :
          _MAX_CALLS ≤ (admitted.filter (fun s => decide (t - _WINDOW_SECONDS ≤ s))).length
      · have hstep : _rate_limit (admitted.filter (fun s => decide (last - _WINDOW_SECONDS ≤ s))) t
            = (false, admitted.filter (fun s => decide (t - _WINDOW_SECONDS ≤ s))) := by
          rw [rate_limit_denied _ _ (by rw [hprune]; exact hfull), hprune]
        rw [runCallsFrom_cons_denied admitted ts' hstep]
        exact ih admitted t hchain' (fun s hs => le_trans (hle s hs) hlt) hcount
      · have hwt : decide (t - _WINDOW_SECONDS ≤ t) = true := by
          simp only [decide_eq_true_eq]
          unfold _WINDOW_SECONDS
          linarith
        have hstep : _rate_limit (admitted.filter (fun s => decide (last - _WINDOW_SECONDS ≤ s))) t
            = (true, admitted.filter (fun s => decide (t - _WINDOW_SECONDS ≤ s)) ++ [t]) := by
          rw [rate_limit_admitted _ _ (by rw [hprune]; exact hfull), hprune]
        rw [runCallsFrom_cons_admitted admitted ts' hstep]
        have hsingle : List.filter (fun s => decide (t - _WINDOW_SECONDS ≤ s)) [t] = [t] := by
          rw [List.filter_cons, if_pos hwt, List.filter_nil]
        have happend :
            admitted.filter (fun s => decide (t - _WINDOW_SECONDS ≤ s)) ++ [t]
              = (admitted ++ [t]).filter (fun s => decide (t - _WINDOW_SECONDS ≤ s)) := by
          rw [List.filter_append, hsingle]
        have hle' : ∀ s ∈ admitted ++ [t], s ≤ t := by
          intro s hs
          rcases List.mem_append.1 hs with h1 | h1
          · exact le_trans (hle s h1) hlt
          · simp at h1; rw [h1]
        have hcount' : ∀ a : ℚ, (((admitted ++ [t]).filter (inWindow a)).length ≤ _MAX_CALLS) := by
          intro a
          rw [List.filter_append]
          cases hwin : inWindow a t with
          | false =>
              have h1 : List.filter (inWindow a) [t] = [] := by
                rw [List.filter_cons, if_neg (by rw [hwin]; exact Bool.false_ne_true), List.filter_nil]
              rw [h1, List.append_nil]
              exact hcount a
          | true =>
              have hta : t ≤ a + _WINDOW_SECONDS := by
                have hw := hwin
                unfold inWindow at hw
                simp only [Bool.and_eq_true, decide_eq_true_eq] at hw
                exact hw.2
              have hmono : (admitted.filter (inWindow a)).length
                  ≤ (admitted.filter (fun s => decide (t - _WINDOW_SECONDS ≤ s))).length := by
                apply length_filter_mono
                intro s _ hwins
                unfold inWindow at hwins
                simp only [Bool.and_eq_true, decide_eq_true_eq] at hwins
                simp only [decide_eq_true_eq]
                linarith [hwins.1]
              have h1 : List.filter (inWindow a) [t] = [t] := by
                rw [List.filter_cons, if_pos hwin, List.filter_nil]
              rw [h1, List.length_append]
              simp only [List.length_cons, List.length_nil]
              omega
        rw [happend]
        exact ih (admitted ++ [t]) t hchain' hle' hcount'

/-! ## C4: the sliding-window bound -/

/-- C4.  For any chronologically ordered call sequence from one caller
identity: every sliding window of duration `_WINDOW_SECONDS` contains
at most `_MAX_CALLS` admitted calls; the bucket never holds more than
`_MAX_CALLS` timestamps after a call; and a further call made when
`_MAX_CALLS` admitted calls are still inside its window is always
denied. -/
theorem admission_sliding_window_bound (ts : List ℚ) (hsorted : List.Chain' (· ≤ ·) ts) :
    (∀ a : ℚ, (((runCalls ts).2.filter (inWindow a)).length ≤ _MAX_CALLS))
    ∧ (runCalls ts).1.length ≤ _MAX_CALLS
    ∧ (∀ t : ℚ, (∀ s ∈ ts, s ≤ t) →
        _MAX_CALLS ≤ ((runCalls ts).2.filter (fun s => decide (t - _WINDOW_SECONDS ≤ s))).length →
        (_rate_limit (runCalls ts).1 t).1 = false) := by
  cases ts with
  | nil =>
      refine ⟨fun a => by simp [runCalls, runCallsFrom], by simp [runCalls, runCallsFrom], ?_⟩
      intro t _ hcnt
      simp [runCalls, runCallsFrom, _MAX_CALLS] at hcnt
  | cons t ts' =>
      have hchain : List.Chain (· ≤ ·) t (t :: ts') := List.Chain.cons le_rfl hsorted
      have base := runCallsFrom_spec (t :: ts') [] t hchain (by simp) (by
        intro a; simp [_MAX_CALLS])
      have hinit : ([] : List ℚ).filter (fun s => decide (t - _WINDOW_SECONDS ≤ s)) = [] := rfl
      rw [hinit] at base
      obtain ⟨hle, hbucket, hcount⟩ := base
      have hrun : runCalls (t :: ts') = runCallsFrom [] [] (t :: ts') := rfl
      refine ⟨by rw [hrun]; exact hcount, ?_, ?_⟩
      · rw [hrun, hbucket]
        have hLmem := getLastD_mem_cons_rat t ts'
        calc ((runCallsFrom [] [] (t :: ts')).2.filter
                (fun s => decide ((t :: ts').getLastD t - _WINDOW_SECONDS ≤ s))).length
            ≤ ((runCallsFrom [] [] (t :: ts')).2.filter
                (inWindow ((t :: ts').getLastD t - _WINDOW_SECONDS))).length := by
              apply length_filter_mono
              intro s hs hp
              simp only [decide_eq_true_eq] at hp
              have hsle : s ≤ (t :: ts').getLastD t := by
                have := hle s hs
                simpa [List.getLastD_cons] using this
              unfold inWindow
              simp only [Bool.and_eq_true, decide_eq_true_eq]
              constructor
              · simpa [List.getLastD_cons] using hp
              · simp only [List.getLastD_cons] at hsle ⊢
                linarith
          _ ≤ _MAX_CALLS := hcount _
      · intro t' ht' hcnt
        have hLmem : ts'.getLastD t ∈ t :: ts' := getLastD_mem_cons_rat t ts'
        have hLt' : ts'.getLastD t ≤ t' := ht' _ hLmem
        rw [hrun] at hcnt ⊢
        unfold _rate_limit
        rw [hbucket]
        simp only [List.getLastD_cons] at *
        rw [filter_window_comp _ _ _ hLt']
        rw [if_pos hcnt]

/-- A constant list is chronologically ordered. -/
theorem chain'_replicate_le (n : Nat) (q : ℚ) : List.Chain' (· ≤ ·) (List.replicate n q) := by
  induction n with
  | zero => exact List.chain'_nil
  | succ n ih =>
      rw [List.replicate_succ]
      cases n with
      | zero => exact List.chain'_singleton q
      | succ m =>
          rw [List.replicate_succ]
          exact List.Chain'.cons le_rfl (by rw [← List.replicate_succ]; exact ih)

set_option maxRecDepth 8000 in
/-- Witness for C4: thirty-one simultaneous calls; the window around
them holds at most thirty admitted calls, and a further call inside
the window is denied. -/
theorem admission_sliding_window_bound_witness :
    List.Chain' (· ≤ ·) (List.replicate 31 (0:ℚ))
    ∧ (((runCalls (List.replicate 31 (0:ℚ))).2.filter (inWindow 0)).length ≤ _MAX_CALLS)
    ∧ (∀ s ∈ List.replicate 31 (0:ℚ), s ≤ (0:ℚ))
    ∧ _MAX_CALLS ≤ ((runCalls (List.replicate 31 (0:ℚ))).2.filter
        (fun s => decide ((0:ℚ) - _WINDOW_SECONDS ≤ s))).length
    ∧ (_rate_limit (runCalls (List.replicate 31 (0:ℚ))).1 0).1 = false := by
  have h1 : List.Chain' (· ≤ ·) (List.replicate 31 (0:ℚ)) := chain'_replicate_le 31 0
  have h3 : ∀ s ∈ List.replicate 31 (0:ℚ), s ≤ (0:ℚ) := by
    intro s hs
    rw [List.eq_of_mem_replicate hs]
  have h4 : _MAX_CALLS ≤ ((runCalls (List.replicate 31 (0:ℚ))).2.filter
      (fun s => decide ((0:ℚ) - _WINDOW_SECONDS ≤ s))).length := by
    with_unfolding_all decide
  exact ⟨h1, (admission_sliding_window_bound _ h1).1 0, h3, h4,
    (admission_sliding_window_bound _ h1).2.2 0 h3 h4⟩

/-! ## C8: denial does not record the attempt -/

/-- C8.  A denied call's timestamp is not appended: on denial the new
bucket is exactly the old bucket with expired entries pruned. -/
theorem denied_call_not_recorded (bucket : List ℚ) (now : ℚ)
    (h : (_rate_limit bucket now).1 = false) :
    (_rate_limit bucket now).2
      = bucket.filter (fun t => decide (now - _WINDOW_SECONDS ≤ t)) := by
  unfold _rate_limit at h ⊢
  by_cases hc : _MAX_CALLS ≤ (bucket.filter (fun t => decide (now - _WINDOW_SECONDS ≤ t))).length
  · rw [if_pos hc]
  · rw [if_neg hc] at h
    simp at h

set_option maxRecDepth 8000 in
/-- Witness for C8: a full bucket of thirty timestamps denies the call
and is returned pruned, with nothing appended. -/
theorem denied_call_not_recorded_witness :
    (_rate_limit (List.replicate 30 (0:ℚ)) 0).1 = false
    ∧ (_rate_limit (List.replicate 30 (0:ℚ)) 0).2
        = (List.replicate 30 (0:ℚ)).filter (fun t => decide ((0:ℚ) - _WINDOW_SECONDS ≤ t)) := by
  have h : (_rate_limit (List.replicate 30 (0:ℚ)) 0).1 = false := by
    with_unfolding_all decide
  exact ⟨h, denied_call_not_recorded _ _ h⟩

/-! ## Lemmas for the graph sampler -/

/-- Value of a linspace sample point. -/
theorem linspace_getElem? (a b : ℚ) (n k : Nat) (hk : k < n) :
    (linspace a b n)[k]? = some (a + (b - a) * k / (n - 1)) := by
  unfold linspace
  rw [List.getElem?_map, List.getElem?_range hk]
  rfl

/-- The sample points of the graph domain. -/
theorem graph_x_getElem? (k : Nat) (hk : k < 400) :
    (linspace (-10) 10 400)[k]? = some ((-10 : ℚ) + 20 * k / 399) := by
  rw [linspace_getElem? (-10) 10 400 k hk]
  norm_num

/-- No sample point of the 400-point domain over [-10, 10] is zero:
the midpoint would need index 199.5. -/
theorem sample_point_ne_zero (k : Nat) (hk : k < 400) :
    (-10 : ℚ) + 20 * k / 399 ≠ 0 := by
  intro h
  have h2 : (20 : ℚ) * k = 3990 := by
    field_simp at h
    linarith
  have h3 : ((20 * k : ℕ) : ℚ) = ((3990 : ℕ) : ℚ) := by push_cast; linarith
  have h4 : 20 * k = 3990 := Nat.cast_injective h3
  omega

/-- The y entry at a sample point follows the truthiness rule of the
list comprehension. -/
theorem graph_y_getD (f : ℚ → NumVal) (e : List Char) (k : Nat) (hk : k < 400) :
    (build_graph_data f e).y.getD k none
      = (if floatTruthy (f (-10 + 20 * k / 399))
          then some (f (-10 + 20 * k / 399)) else none) := by
  unfold build_graph_data
  simp only []
  rw [List.getD_eq_getElem?_getD, List.getElem?_map, graph_x_getElem? k hk]
  rfl

/-- The x entry at a sample point. -/
theorem graph_x_getD (f : ℚ → NumVal) (e : List Char) (k : Nat) (hk : k < 400) :
    (build_graph_data f e).x.getD k 0 = -10 + 20 * k / 399 := by
  unfold build_graph_data
  simp only []
  rw [List.getD_eq_getElem?_getD, graph_x_getElem? k hk]
  rfl

/-! ## C6: the shape of the graph sample -/

/-- C6, amended.  For every numeric evaluation capability `f` and
expression: the sample has exactly 400 points, evenly spaced (step
20/399) spanning -10 to 10; a point's y entry is absent exactly when
the SymPy Float of its value is falsy — that is, when the value is
zero — so points whose evaluation is non-finite are recorded with a
present value rather than an absent one; and for the expression
x-caret-2 every one of the 400 points is present (its values are
nonzero since zero is not a sample point). -/
theorem graph_sample_shape_and_null_rule (f : ℚ → NumVal) (e : List Char)
    (k : Nat) (hk : k < 400) :
    (build_graph_data f e).x.length = 400
    ∧ (build_graph_data f e).y.length = 400
    ∧ (build_graph_data f e).x.getD 0 0 = -10
    ∧ (build_graph_data f e).x.getD 399 0 = 10
    ∧ (build_graph_data f e).x.getD k 0 = -10 + 20 * k / 399
    ∧ (k + 1 < 400 →
        (build_graph_data f e).x.getD (k + 1) 0 - (build_graph_data f e).x.getD k 0 = 20 / 399)
    ∧ ((build_graph_data f e).y.getD k none = none
        ↔ floatTruthy (f (-10 + 20 * k / 399)) = false)
    ∧ (build_graph_data evalSquare e).y.getD k none ≠ none := by
  refine ⟨?_, ?_, ?_, ?_, graph_x_getD f e k hk, ?_, ?_, ?_⟩
  · simp [build_graph_data, linspace]
  · simp [build_graph_data, linspace]
  · rw [graph_x_getD f e 0 (by norm_num)]
    norm_num
  · rw [graph_x_getD f e 399 (by norm_num)]
    norm_num
  · intro hk1
    rw [graph_x_getD f e (k + 1) hk1, graph_x_getD f e k hk]
    push_cast
    ring
  · rw [graph_y_getD f e k hk]
    cases h : floatTruthy (f (-10 + 20 * k / 399)) <;> simp [h]
  · rw [graph_y_getD evalSquare e k hk]
    have hne : (-10 : ℚ) + 20 * k / 399 ≠ 0 := sample_point_ne_zero k hk
    have htruthy : floatTruthy (evalSquare (-10 + 20 * k / 399)) = true := by
      unfold evalSquare floatTruthy
      simp only [decide_eq_true_eq]
      exact mul_ne_zero hne hne
    rw [if_pos htruthy]
    simp

/-- Witness for C6: the first sample point of the x-squared graph. -/
theorem graph_sample_shape_and_null_rule_witness :
    (0 : Nat) < 400
    ∧ ((build_graph_data evalSquare ("x^2".toList)).x.length = 400
      ∧ (build_graph_data evalSquare ("x^2".toList)).y.length = 400
      ∧ (build_graph_data evalSquare ("x^2".toList)).x.getD 0 0 = -10
      ∧ (build_graph_data evalSquare ("x^2".toList)).x.getD 399 0 = 10
      ∧ (build_graph_data evalSquare ("x^2".toList)).x.getD 0 0 = -10 + 20 * (0:ℕ) / 399
      ∧ ((0:ℕ) + 1 < 400 →
          (build_graph_data evalSquare ("x^2".toList)).x.getD (0 + 1) 0
            - (build_graph_data evalSquare ("x^2".toList)).x.getD 0 0 = 20 / 399)
      ∧ ((build_graph_data evalSquare ("x^2".toList)).y.getD 0 none = none
          ↔ floatTruthy (evalSquare (-10 + 20 * (0:ℕ) / 399)) = false)
      ∧ (build_graph_data evalSquare ("x^2".toList)).y.getD 0 none ≠ none) :=
  ⟨by norm_num, graph_sample_shape_and_null_rule evalSquare ("x^2".toList) 0 (by norm_num)⟩

set_option maxRecDepth 8000 in
/-- C6, counterexample.  For the expression 1/(x+10) the first sample
point is exactly -10, where NumPy evaluation yields positive infinity —
a non-finite value — yet the graph records the point with a present
value, not with an absent y: the claim that every non-finite point is
recorded as absent is false. -/
theorem nonfinite_point_recorded_present :
    (evalInvShift (-10)).isFinite = false
    ∧ (build_graph_data evalInvShift ("1/(x+10)".toList)).x.getD 0 0 = -10
    ∧ (build_graph_data evalInvShift ("1/(x+10)".toList)).y.getD 0 none
        = some NumVal.posInf := by
  refine ⟨by with_unfolding_all decide, ?_, ?_⟩
  · rw [graph_x_getD evalInvShift ("1/(x+10)".toList) 0 (by norm_num)]
    norm_num
  · rw [graph_y_getD evalInvShift ("1/(x+10)".toList) 0 (by norm_num)]
    have h0 : ((-10 : ℚ) + 20 * (0:ℕ) / 399) = -10 := by norm_num
    rw [h0]
    have hinf : evalInvShift (-10) = NumVal.posInf := by
      unfold evalInvShift
      rw [if_pos (by norm_num)]
    rw [hinf]
    rfl

